import Mathlib

/-!
Verification development for the constrained pure-exploration bandit code in
`Experiment.py`.  The numerical routines of the source are shallowly embedded
over the rationals (the source computes with IEEE doubles; the embedding uses
exact arithmetic with the same formulas, and the opaque `scipy` solvers are
modelled as oracle parameters whose outputs the surrounding code consumes).
Real-valued formulas that the source never branches on (the stopping statistic,
which involves `log` and `sqrt`) are embedded over `ℝ` as propositions.
-/

namespace BanditExp

/-- PRECISION constant from the source (`PRECISION = 1e-12`), used as an
additive floor on weight-derived denominators. -/
def PRECISION : ℚ := 1 / 1000000000000

/-- Elementwise dot product of two rational vectors represented as lists,
mirroring `np.dot` on equal-length one-dimensional arrays. -/
def dotL (x y : List ℚ) : ℚ := (List.zipWith (· * ·) x y).sum

/-- Sum of a rational vector, mirroring `np.sum`. -/
def sumL (x : List ℚ) : ℚ := x.sum

/-- Elementwise difference of two vectors, mirroring `pi1 - pi2` on arrays. -/
def subL (x y : List ℚ) : List ℚ := List.zipWith (· - ·) x y

/-- Matrix-vector product with the matrix given as a list of rows, mirroring
`A.dot(x)` for a two-dimensional array `A`. -/
def mvL (A : List (List ℚ)) (x : List ℚ) : List ℚ := A.map (fun row => dotL row x)

/-- Minimum entry of a rational vector with default `0`, mirroring `np.min`
on a (nonempty) array. -/
def minL (x : List ℚ) : ℚ := x.foldr min (x.headD 0)

/-- Plain Gaussian information projection `gaussian_projection_lb` from the
source: closed-form projection of `mu` onto the hyperplane orthogonal to
`v = pi1 - pi2`, weighted by `w`.  Transcribed line by line:
`normalizer = ((v**2)/(w+PRECISION)).sum()`,
`lagrange = mu.dot(v)/normalizer` (note: the normalizer denominator is NOT
floored in this variant, unlike in `gaussian_projection`),
`lam = mu - lagrange * v/(w+PRECISION)`,
`value = (w*((mu-lam)**2)).sum()/(2*sigma**2)`.
Division here is the total division of `ℚ`, which is exact arithmetic for a
nonzero normalizer; at a zero normalizer the source's float division instead
produces non-finite values (NaN or infinity), a path this total function
cannot express — `gaussian_projection_lb_float` makes that error path
explicit. -/
def gaussian_projection_lb (w mu pi1 pi2 : List ℚ) (sigma : ℚ) : List ℚ × ℚ :=
  let v := subL pi1 pi2
  let normalizer := (List.zipWith (fun vi wi => vi ^ 2 / (wi + PRECISION)) v w).sum
  let lagrange := dotL mu v / normalizer
  let lam := List.zipWith3 (fun m vi wi => m - lagrange * vi / (wi + PRECISION)) mu v w
  let var := sigma ^ 2
  let value := (List.zipWith (fun wi d => wi * d ^ 2) w (subL mu lam)).sum / (2 * var)
  (lam, value)

/-- Constraint-aware Gaussian projection `gaussian_projection` from the source.
The closed form is as in `gaussian_projection_lb` except that the normalizer
denominator is additionally floored (`lagrange = mu.dot(v)/(normalizer+PRECISION)`).
The auxiliary convex program over the Lagrange multipliers is run through
`scipy.optimize.minimize`; that call is opaque, so its output `res.x` is the
oracle parameter `lmin`.  The function returns
`(lam, objective_for_l(res.x), res.x)` with
`objective_for_l(x) = value + x.dot(b - A.dot(w))`. -/
def gaussian_projection (w mu pi1 pi2 : List ℚ) (l0 : List ℚ)
    (A : List (List ℚ)) (b : List ℚ) (sigma : ℚ) (lmin : List ℚ) :
    List ℚ × ℚ × List ℚ :=
  let _ := l0
  let v := subL pi1 pi2
  let normalizer := (List.zipWith (fun vi wi => vi ^ 2 / (wi + PRECISION)) v w).sum
  let lagrange := dotL mu v / (normalizer + PRECISION)
  let lam := List.zipWith3 (fun m vi wi => m - lagrange * vi / (wi + PRECISION)) mu v w
  let var := sigma ^ 2
  let value := (List.zipWith (fun wi d => wi * d ^ 2) w (subL mu lam)).sum / (2 * var)
  (lam, value + dotL lmin (subL b (mvL A w)), lmin)

/-- Feasible set of the auxiliary multiplier program inside
`gaussian_projection`: the source passes bounds `(0, inf)` on every coordinate
and the linear constraint `0 <= sum(x) <= value/(min(gamma)+PRECISION)` with
`gamma = A.dot(w) - b`, where `value` is the closed-form divergence value.
A successful `scipy.optimize.minimize` call returns a point satisfying these
constraints; this predicate states them for the oracle output. -/
def gaussian_aux_feasible (w mu pi1 pi2 : List ℚ) (A : List (List ℚ)) (b : List ℚ)
    (sigma : ℚ) (lmin : List ℚ) : Prop :=
  let v := subL pi1 pi2
  let normalizer := (List.zipWith (fun vi wi => vi ^ 2 / (wi + PRECISION)) v w).sum
  let lagrange := dotL mu v / (normalizer + PRECISION)
  let lam := List.zipWith3 (fun m vi wi => m - lagrange * vi / (wi + PRECISION)) mu v w
  let var := sigma ^ 2
  let value := (List.zipWith (fun wi d => wi * d ^ 2) w (subL mu lam)).sum / (2 * var)
  let gamma := subL (mvL A w) b
  (∀ xi ∈ lmin, 0 ≤ xi) ∧ 0 ≤ sumL lmin ∧ sumL lmin ≤ value / (minL gamma + PRECISION)

/-- Alternative-mean formula of claim C2, read with every weight-derived
denominator floored by `PRECISION` (the per-coordinate weight denominators and
the normalizer denominator alike):
`mu - ((mu.v)/(sum(v^2/(w+eps))+eps)) * v/(w+eps)`. -/
def claimed_alternative_mean (w mu pi1 pi2 : List ℚ) : List ℚ :=
  let v := subL pi1 pi2
  let normalizer := (List.zipWith (fun vi wi => vi ^ 2 / (wi + PRECISION)) v w).sum
  let lagrange := dotL mu v / (normalizer + PRECISION)
  List.zipWith3 (fun m vi wi => m - lagrange * vi / (wi + PRECISION)) mu v w

/-- Non-finite result of a floating-point computation: a division whose IEEE
result is NaN or an infinity rather than a finite number. -/
inductive FloatError
  | nanDivision
deriving DecidableEq

/-- Unfloored normalizer of the plain Gaussian projection, the denominator of
the source's `lagrange = mu.dot(v) / normalizer`: `sum(v^2 / (w + eps))` with
`v = pi1 - pi2`. -/
def lb_normalizer (w pi1 pi2 : List ℚ) : ℚ :=
  (List.zipWith (fun vi wi => vi ^ 2 / (wi + PRECISION)) (subL pi1 pi2) w).sum

/-- Plain Gaussian projection with the IEEE error path made explicit.  The
normalizer is a sum of terms `v_i^2 / (w_i + eps)`, nonnegative for the
nonnegative weights the algorithm passes, so it vanishes exactly when
`v = pi1 - pi2` is zero; the source then divides `0.0 / 0.0`, getting NaN
(with adversarial negative weights a cancelling normalizer gives a division
by zero as well, NaN or infinity), and NaN propagates into every entry of the
returned mean and into the value.  The embedding reports a zero normalizer as
`FloatError.nanDivision`; away from it the computation is the exact
arithmetic of `gaussian_projection_lb`. -/
def gaussian_projection_lb_float (w mu pi1 pi2 : List ℚ) (sigma : ℚ) :
    Except FloatError (List ℚ × ℚ) :=
  if lb_normalizer w pi1 pi2 = 0 then Except.error FloatError.nanDivision
  else Except.ok (gaussian_projection_lb w mu pi1 pi2 sigma)

/-- Error raised by a Python call whose argument list does not match the
callee's required positional parameters. -/
inductive PyCallError
  | arityMismatch
deriving DecidableEq

/-- Bernoulli projection `bernoulli_projection` from the source.  Its warm
start is the call `gaussian_projection(w, mu, pi1, pi2, sigma)`, which supplies
five positional arguments to a function whose signature
`gaussian_projection(w, mu, pi1, pi2, l0, A, b, sigma=1)` has seven required
positional parameters: `sigma` is bound to `l0` and `A`, `b` are left unbound,
so the call raises `TypeError` before any numerical work happens.  Every call
of `bernoulli_projection` therefore fails; the embedding returns that error. -/
def bernoulli_projection (w mu pi1 pi2 : List ℚ) (sigma : ℚ) :
    Except PyCallError (List ℚ × ℚ) :=
  let _ := (w, mu, pi1, pi2, sigma)
  Except.error PyCallError.arityMismatch

/-- Required positional parameter count of `gaussian_projection` in the source
(`w, mu, pi1, pi2, l0, A, b`; `sigma` has a default). -/
def gaussian_projection_required_args : ℕ := 7

/-- Number of positional arguments supplied by `bernoulli_projection`'s
warm-start call `gaussian_projection(w, mu, pi1, pi2, sigma)`. -/
def bernoulli_warmstart_supplied_args : ℕ := 5

/-- Alternative-mean formula that the plain variant actually computes, written
in the spec's vocabulary: `mu - ((mu.v)/sum(v^2/(w+eps))) * v/(w+eps)` with
`v = pi1 - pi2`; the per-coordinate weight denominators are floored but the
normalizer denominator is not. -/
def plain_alternative_mean (w mu pi1 pi2 : List ℚ) : List ℚ :=
  let v := subL pi1 pi2
  let normalizer := (List.zipWith (fun vi wi => vi ^ 2 / (wi + PRECISION)) v w).sum
  let lagrange := dotL mu v / normalizer
  List.zipWith3 (fun m vi wi => m - lagrange * vi / (wi + PRECISION)) mu v w

/-- Divergence value formula for the plain variant in the spec's vocabulary:
`sum(w * (mu - alternativeMean)^2) / (2*sigma^2)` with the alternative mean the
plain variant computes. -/
def plain_divergence_value (w mu pi1 pi2 : List ℚ) (sigma : ℚ) : ℚ :=
  (List.zipWith (fun wi d => wi * d ^ 2) w
    (subL mu (plain_alternative_mean w mu pi1 pi2))).sum / (2 * sigma ^ 2)

/-- Identity-matrix rows `np.eye(n)` as a list of rows. -/
def eyeRows (n : ℕ) : List (List ℚ) :=
  (List.range n).map (fun i => (List.range n).map (fun j => if i = j then 1 else 0))

/-- Negated identity rows `-np.eye(n)`. -/
def negEyeRows (n : ℕ) : List (List ℚ) :=
  (List.range n).map (fun i => (List.range n).map (fun j => if i = j then -1 else 0))

/-- Stacked constraint matrix built by `project_on_feasible`: with `A`
present it is `[A, eye, -eye, simplex, -simplex]`, without `A` the same minus
the leading block; `simplex` is the all-ones row. -/
def stacked_A (A : Option (List (List ℚ))) (n : ℕ) : List (List ℚ) :=
  match A with
  | some M => M ++ eyeRows n ++ negEyeRows n
      ++ [List.replicate n 1] ++ [List.replicate n (-1)]
  | none => eyeRows n ++ negEyeRows n
      ++ [List.replicate n 1] ++ [List.replicate n (-1)]

/-- Stacked upper-bound vector built by `project_on_feasible`:
`[b, ones(n), zeros(n), [1], [-1]]` (or without the leading `b`). -/
def stacked_b (b : Option (List ℚ)) (n : ℕ) : List ℚ :=
  match b with
  | some v => v ++ List.replicate n 1 ++ List.replicate n 0 ++ [1] ++ [-1]
  | none => List.replicate n 1 ++ List.replicate n 0 ++ [1] ++ [-1]

/-- Satisfaction of a `scipy.optimize.LinearConstraint(A=M, ub=ub)` system:
every row's dot product with `x` is bounded by the matching entry of `ub`. -/
def constr_sat (M : List (List ℚ)) (ub : List ℚ) (x : List ℚ) : Prop :=
  List.Forall₂ (fun row u => dotL row x ≤ u) M ub

/-- Error raised by `project_on_feasible` when the returned point fails the
sum gate (the source raises with the message that the allocation does not sum
to one). -/
inductive ProjectionError
  | sumGate
deriving DecidableEq

/-- Euclidean projection wrapper `project_on_feasible` from the source.  The
function stacks the constraint system (`stacked_A`, `stacked_b`), hands it to
`scipy.optimize.minimize` and takes `results["x"]` unconditionally — the
solver output is the oracle parameter `xOpt`, and the solver's success flag is
never consulted.  The only check performed on `xOpt` before returning it is
the sum gate `|sum(x) - 1| > 1e-5`, which raises; no constraint-violation
check is made. -/
def project_on_feasible (allocation : List ℚ) (A : Option (List (List ℚ)))
    (b : List ℚ) (xOpt : List ℚ) : Except ProjectionError (List ℚ) :=
  let _ := (allocation, A, b)
  if |sumL xOpt - 1| > 1 / 100000 then Except.error ProjectionError.sumGate
  else Except.ok xOpt

/-- Per-round decision triple of the exploration harness: the arm to pull, the
stop flag and the recommended policy (`None` during warm-up). -/
structure Decision where
  arm : ℕ
  stop : Bool
  policy : Option (List ℚ)
deriving DecidableEq

/-- Tail of `CGE.act`: the body after `get_policy` runs only under
`if results["success"] == True:`, so on LP failure the method falls through
and returns Python `None` instead of a decision tuple. -/
def cge_act_result (success : Bool) (d : Decision) : Option Decision :=
  if success then some d else none

/-- Round loop of `run_exploration_experiment`.  Each round attempts
`explorer.act()`; a round that yields a decision appends it to the
`(policy_list, done_list, arm_list)` records, while a round whose `act` result
is not a tuple (the `TypeError` path taken after `NoOptimalPolicy`) reuses the
last recorded decision without appending, and crashes with `IndexError` (here
`none`) when no decision has ever been recorded.  The argument `outs` is the
stream of `act` outcomes, `app` the records accumulated so far, and the result
is the list of effective per-round decisions. -/
def run_harness : List (Option Decision) → List Decision → Option (List Decision)
  | [], _ => some []
  | o :: rest, app =>
    match o with
    | some d => (run_harness rest (app ++ [d])).map (fun eff => d :: eff)
    | none =>
      match app.getLast? with
      | some d => (run_harness rest app).map (fun eff => d :: eff)
      | none => none

/-- Effective decision sequence of the harness, defaulting to the empty list
(only used after `run_harness` is known to succeed). -/
def eff_run (outs : List (Option Decision)) (app : List Decision) : List Decision :=
  (run_harness outs app).getD []

/-- Base tolerance ladder of `solve_game`:
`tol_sweep = [1e-16, 1e-12, 1e-6, 1e-4]`. -/
def tol_sweep_base : List (Option ℚ) :=
  [some (1 / 10 ^ 16), some (1 / 10 ^ 12), some (1 / 10 ^ 6), some (1 / 10 ^ 4)]

/-- Tolerance ladder actually tried by `solve_game`: the caller's tolerance is
prepended only when it is not `None` and exceeds `1e-16`, and in that case it
replaces the `None` (auto-tuned) rung; otherwise the ladder starts with
`None`. -/
def tol_sweep (tol : Option ℚ) : List (Option ℚ) :=
  match tol with
  | some t => if t > 1 / 10 ^ 16 then some t :: tol_sweep_base else none :: tol_sweep_base
  | none => none :: tol_sweep_base

/-- Ladder as written in the claim, `[caller-tol?, None, 1e-16, 1e-12, 1e-6,
1e-4]`: the caller's tolerance, when supplied, sits in front of the `None`
rung rather than replacing it. -/
def claim_ladder (tol : Option ℚ) : List (Option ℚ) :=
  (match tol with
   | some t => [some t]
   | none => []) ++ none :: tol_sweep_base

/-- Result record of one `scipy.optimize.minimize` call: success flag,
minimizer and objective value. -/
structure OptResult where
  success : Bool
  x : List ℚ
  fval : ℚ

/-- Retry loop of `solve_game`: walk the tolerance ladder in order, drawing a
fresh randomized feasible starting point (`starts k`) for each rung, and stop
at the first rung whose optimizer call reports success, returning `res.x` and
the negated objective; if every rung fails the function falls through and
returns nothing (Python `None`, the `GameUnsolved` signal).  The optimizer
together with the feasible-start generation is the oracle `opt`. -/
def solve_game_sweep (opt : List ℚ → Option ℚ → OptResult) (starts : ℕ → List ℚ) :
    List (Option ℚ) → ℕ → Option (List ℚ × ℚ)
  | [], _ => none
  | t :: rest, k =>
    let r := opt (starts k) t
    if r.success then some (r.x, -r.fval) else solve_game_sweep opt starts rest (k + 1)

/-- Entry point `solve_game` from the source: with no explicit starting point
it runs the tolerance-ladder retry loop; with an explicit `x0` it performs a
single optimizer call at the caller's tolerance and applies the same success
gate. -/
def solve_game (opt : List ℚ → Option ℚ → OptResult) (starts : ℕ → List ℚ)
    (tol : Option ℚ) (x0 : Option (List ℚ)) : Option (List ℚ × ℚ) :=
  match x0 with
  | none => solve_game_sweep opt starts (tol_sweep tol) 0
  | some xstart =>
    let r := opt xstart tol
    if r.success then some (r.x, -r.fval) else none

/-- Optimizer oracle that always succeeds, used to witness the ladder
characterization at a concrete input. -/
def const_opt : List ℚ → Option ℚ → OptResult := fun _ _ => ⟨true, [1], 5⟩

/-- Constant feasible-start stream for the same witness. -/
def const_starts : ℕ → List ℚ := fun _ => []

/-- Default KL divergence used by `get_confidence_interval` when none is
supplied: `((m1 - m2)**2)/2`. -/
def default_kl (m1 m2 : ℚ) : ℚ := (m1 - m2) ^ 2 / 2

/-- Evenly spaced grid `np.linspace(a, b, num)`, as a function of the index:
point `i` is `a + (b - a) * i / (num - 1)`. -/
def linspace (a b : ℚ) (num : ℕ) : ℕ → ℚ :=
  fun i => a + (b - a) * i / ((num : ℚ) - 1)

/-- Bisection loop of `binary_search`: probe the midpoint `i = (p + q) / 2`
of the current bracket, move `p` up to `i` when the probed loss is below the
threshold and `q` down to `i` otherwise, and stop once the bracket has
collapsed (the source checks `p + 1 >= q` after the update), returning the
last probed grid value and its loss.  The loop is written with a fuel
parameter; the bracket width strictly shrinks every iteration, so any fuel at
least `q - p` is never exhausted and the fuel-out branch (which returns the
current probe) is unreachable from the source's initial bracket. -/
def bs_loop (kl : ℚ → ℚ) (threshold : ℚ) (itv : ℕ → ℚ) : ℕ → ℕ → ℕ → ℚ × ℚ
  | 0, p, q => (itv ((p + q) / 2), kl (itv ((p + q) / 2)))
  | fuel + 1, p, q =>
    let i := (p + q) / 2
    let x := itv i
    if kl x < threshold then
      if i + 1 ≥ q then (x, kl x) else bs_loop kl threshold itv fuel i q
    else
      if p + 1 ≥ i then (x, kl x) else bs_loop kl threshold itv fuel p i

/-- Binary search from the source, over a grid of `len` points: bisection on
the index range `[0, len)` with fuel `len`.  Returns the grid value and its
loss. -/
def binary_search (kl : ℚ → ℚ) (itv : ℕ → ℚ) (threshold : ℚ) (len : ℕ) : ℚ × ℚ :=
  bs_loop kl threshold itv len 0 len

/-- Per-arm confidence bounds `get_confidence_interval` from the source: for
each arm with mean `m` and pull count `n`, the upper bound searches the grid
`linspace(m, upper, 5000)` and the lower bound the grid
`linspace(m, lower, 5000)`, both against threshold `f_t / n`; returns
`(lb, ub)`. -/
def get_confidence_interval (mu pulls : List ℚ) (f_t : ℚ) (upper lower : ℚ)
    (kl : ℚ → ℚ → ℚ) : List ℚ × List ℚ :=
  (List.zipWith
    (fun m n => (binary_search (kl m) (linspace m lower 5000) (f_t / n) 5000).1) mu pulls,
   List.zipWith
    (fun m n => (binary_search (kl m) (linspace m upper 5000) (f_t / n) 5000).1) mu pulls)

/-- Dot product of two `Fin`-indexed rational vectors. -/
def dotF {n : ℕ} (f g : Fin n → ℚ) : ℚ := ∑ j, f j * g j

/-- Active constraint indices of `compute_neighbors`: the source computes
`active = slack == 0`, exact equality with zero, no tolerance. -/
def active_indices {m : ℕ} (slack : Fin m → ℚ) : List (Fin m) :=
  (List.finRange m).filter (fun c => decide (slack c = 0))

/-- Inactive constraint indices: `not_active = slack != 0`. -/
def inactive_indices {m : ℕ} (slack : Fin m → ℚ) : List (Fin m) :=
  (List.finRange m).filter (fun c => decide (¬slack c = 0))

/-- Square submatrix `A[new_base]` selecting the rows listed in `nb` (out of
range positions, which never occur for the bases actually enumerated, default
to a zero row). -/
def row_select {m n : ℕ} (A : Fin m → Fin n → ℚ) (nb : List (Fin m)) :
    Matrix (Fin n) (Fin n) ℚ :=
  fun r j =>
    match nb.get? r.1 with
    | some idx => A idx j
    | none => 0

/-- Right-hand side `b[new_base]` for a selected base. -/
def b_select {m n : ℕ} (b : Fin m → ℚ) (nb : List (Fin m)) : Fin n → ℚ :=
  fun r =>
    match nb.get? r.1 with
    | some idx => b idx
    | none => 0

/-- Exact solution of the square system `B x = c` by Cramer's rule.  This is
the value `np.linalg.solve(B, c)` computes whenever `B` is invertible — the
only case in which the source calls it, guarded by the rank test, which for a
square matrix in exact arithmetic is `det B ≠ 0`. -/
def cramer_solve {n : ℕ} (B : Matrix (Fin n) (Fin n) ℚ) (c : Fin n → ℚ) : Fin n → ℚ :=
  fun i => (B.updateColumn i c).det / B.det

/-- numpy `np.allclose(a, b)` with the default tolerances `rtol = 1e-5` and
`atol = 1e-8`: elementwise `|a - b| <= atol + rtol * |b|`. -/
def allclose {n : ℕ} (a b : Fin n → ℚ) : Prop :=
  ∀ j, |a j - b j| ≤ 1 / 100000000 + 1 / 100000 * |b j|

instance {n : ℕ} (a b : Fin n → ℚ) : Decidable (allclose a b) :=
  inferInstanceAs (Decidable (∀ _j, _ ≤ _))

/-- Membership test `arreqclose_in_list` of the source: some already-collected
array is `allclose` to the candidate (the candidate is the second argument of
`np.allclose`, matching the source's argument order). -/
def arreqclose_in_list {n : ℕ} (x : Fin n → ℚ) (l : List (Fin n → ℚ)) : Prop :=
  ∃ e ∈ l, allclose e x

instance {n : ℕ} (x : Fin n → ℚ) (l : List (Fin n → ℚ)) :
    Decidable (arreqclose_in_list x l) :=
  inferInstanceAs (Decidable (∃ e ∈ l, _))

/-- Swapped bases enumerated by `compute_neighbors`: every combination of
`len(vertex)`-many active constraints, with every position replaced in turn by
every inactive constraint, in loop order. -/
def candidate_bases {m : ℕ} (n : ℕ) (slack : Fin m → ℚ) : List (List (Fin m)) :=
  (List.sublistsLen n (active_indices slack)).flatMap (fun base =>
    (inactive_indices slack).flatMap (fun c =>
      (List.range base.length).map (fun i => base.set i c)))

/-- Acceptance step of the neighbor loop: keep the candidate base only if its
selected square matrix is full rank (`det ≠ 0`), solve the square system, and
append the solution when it lies in the polytope within tolerance `1e-5` and
is not approximately equal to an already-collected neighbor. -/
def add_candidate {m n : ℕ} (A : Fin m → Fin n → ℚ) (b : Fin m → ℚ)
    (acc : List (Fin n → ℚ)) (nb : List (Fin m)) : List (Fin n → ℚ) :=
  if (row_select A nb).det ≠ 0 then
    let x := cramer_solve (row_select A nb) (b_select b nb)
    if (∀ r, dotF (A r) x ≤ b r + 1 / 100000) ∧ ¬arreqclose_in_list x acc
    then acc ++ [x]
    else acc
  else acc

/-- Neighbor enumeration `compute_neighbors` from the source: fold the
acceptance step over all swapped bases.  The vertex argument enters only
through its length (the basis size and the rank threshold), which is the type
index `n` here. -/
def compute_neighbors {m n : ℕ} (A : Fin m → Fin n → ℚ) (b : Fin m → ℚ)
    (vertex : Fin n → ℚ) (slack : Fin m → ℚ) : List (Fin n → ℚ) :=
  let _ := vertex
  (candidate_bases n slack).foldl (add_candidate A b) []

/-- Concrete polytope data used to witness the neighbor-enumeration theorem:
two constraints on one arm, the first active at the vertex. -/
def wA : Fin 2 → Fin 1 → ℚ := ![![1], ![2]]

/-- Constraint bounds for the same witness. -/
def wb : Fin 2 → ℚ := ![1, 3]

/-- Vertex for the same witness. -/
def wvertex : Fin 1 → ℚ := ![1]

/-- Slack vector for the same witness (`b - A.vertex`). -/
def wslack : Fin 2 → ℚ := ![0, 1]

/-- One-constraint, one-arm data used to witness the exact-activity theorem. -/
def qA : Fin 1 → Fin 1 → ℚ := ![![1]]

/-- Constraint bound for the same witness. -/
def qb : Fin 1 → ℚ := ![1]

/-- Vertex for the same witness. -/
def qvertex : Fin 1 → ℚ := ![1]

/-- Slack vector for the same witness: nonzero, so no constraint is active. -/
def qslack : Fin 1 → ℚ := ![1 / 2]

/-- Stopping rule `Explorer.stopping_criterion` from the source, transcribed
over the reals.  The source calls `best_response` at the empirical allocation
`self.n_pulls / self.t` to obtain the game value and the multiplier vector
`best_l`; that projection solve is opaque, so the pair is the oracle `br`
evaluated at the empirical allocation.  The test then fires exactly when
`self.t * game_value
   + best_l.dot(self.b - (self.constraints - f_t*np.sqrt(w_t_norm)).dot(vertex))
 > beta + best_l.sum() * (f_t*np.sqrt(w_t_norm) + 1)`
with `beta = np.log((1 + np.log(self.t))*2 / self.delta)`. -/
def stopping_criterion {mm na : ℕ} (br : (Fin na → ℝ) → ℝ × (Fin mm → ℝ))
    (n_pulls : Fin na → ℝ) (t : ℝ) (delta : ℝ)
    (constraints : Fin mm → Fin na → ℝ) (b : Fin mm → ℝ)
    (vertex : Fin na → ℝ) (f_t w_t_norm : ℝ) : Prop :=
  let res := br (fun a => n_pulls a / t)
  let game_value := res.1
  let best_l := res.2
  let beta := Real.log ((1 + Real.log t) * 2 / delta)
  t * game_value +
      (∑ r, best_l r * (b r - ∑ a, (constraints r a - f_t * Real.sqrt w_t_norm) * vertex a))
    > beta + (∑ r, best_l r) * (f_t * Real.sqrt w_t_norm + 1)

/-- Stopping test as the specification words it: given the game value and
multipliers from the best response, the shrunk constraint matrix and the
threshold `beta = log((1+log t)*2/delta)`, stop exactly when
`t*gameValue + multipliers.(b - shrunkConstraints.optimalPolicy)
 > beta + sum(multipliers)*(f_t*sqrt(w_t_norm)+1)`. -/
def spec_stopping_test {mm na : ℕ} (game_value : ℝ) (best_l : Fin mm → ℝ)
    (b : Fin mm → ℝ) (shrunk : Fin mm → Fin na → ℝ) (vertex : Fin na → ℝ)
    (t delta f_t w_t_norm : ℝ) : Prop :=
  let beta := Real.log ((1 + Real.log t) * 2 / delta)
  t * game_value + (∑ r, best_l r * (b r - ∑ a, shrunk r a * vertex a))
    > beta + (∑ r, best_l r) * (f_t * Real.sqrt w_t_norm + 1)

-- ===================== Helper lemmas =====================

/-- Pointwise subtraction of a list from itself yields the all-zero vector. -/
theorem subL_self (l : List ℚ) : subL l l = List.replicate l.length 0 := by
  induction l with
  | nil => rfl
  | cons a t ih =>
    simp only [subL, List.zipWith, List.length_cons, List.replicate_succ, sub_self]
    simp only [subL] at ih
    rw [ih]

/-- Dot product with a zero vector of sufficient length is zero. -/
theorem dotL_replicate_zero (l : List ℚ) (n : ℕ) : dotL l (List.replicate n 0) = 0 := by
  induction l generalizing n with
  | nil => simp [dotL]
  | cons a t ih =>
    cases n with
    | zero => simp [dotL]
    | succ k =>
      simp only [List.replicate_succ, dotL, List.zipWith, mul_zero, List.sum_cons]
      have := ih k
      simp [dotL] at this
      simpa using this

/-- Zipping a binary function over a leading zero vector where the function
kills zeros sums to zero. -/
theorem zip_sq_replicate_zero (w : List ℚ) (n : ℕ) :
    (List.zipWith (fun vi wi => vi ^ 2 / (wi + PRECISION)) (List.replicate n 0) w).sum = 0 := by
  induction w generalizing n with
  | nil => simp
  | cons a t ih =>
    cases n with
    | zero => simp
    | succ k =>
      simp only [List.replicate_succ, List.zipWith, List.sum_cons]
      rw [ih k]
      norm_num

/-- A ternary zip that returns its first component reproduces the first list
when the other two lists are at least as long. -/
theorem zipWith3_fst (as bs cs : List ℚ) (hb : as.length ≤ bs.length)
    (hc : as.length ≤ cs.length) :
    List.zipWith3 (fun a _ _ => a) as bs cs = as := by
  induction as generalizing bs cs with
  | nil => simp [List.zipWith3]
  | cons a t ih =>
    cases bs with
    | nil => simp at hb
    | cons b tb =>
      cases cs with
      | nil => simp at hc
      | cons c tc =>
        simp only [List.zipWith3]
        simp only [List.length_cons, Nat.succ_le_succ_iff] at hb hc
        rw [ih tb tc hb hc]

/-- Weighted sum of squared deviations of a vector from itself is zero. -/
theorem zip_wsq_self_zero (w : List ℚ) (n : ℕ) :
    (List.zipWith (fun wi d => wi * d ^ 2) w (List.replicate n 0)).sum = 0 := by
  induction w generalizing n with
  | nil => simp
  | cons a t ih =>
    cases n with
    | zero => simp
    | succ k =>
      simp only [List.replicate_succ, List.zipWith, List.sum_cons]
      rw [ih k]
      norm_num

/-- Nonnegative entries summing to at most zero are all zero. -/
theorem all_zero_of_nonneg_sum_nonpos (l : List ℚ) (h0 : ∀ x ∈ l, 0 ≤ x)
    (hs : l.sum ≤ 0) : ∀ x ∈ l, x = 0 := by
  induction l with
  | nil => simp
  | cons a t ih =>
    have ha : 0 ≤ a := h0 a (List.mem_cons_self a t)
    have ht : 0 ≤ t.sum := List.sum_nonneg (fun x hx => h0 x (List.mem_cons_of_mem a hx))
    have hsum : a + t.sum ≤ 0 := by simpa using hs
    have ha0 : a = 0 := le_antisymm (by linarith) ha
    intro x hx
    rcases List.mem_cons.mp hx with h | h
    · exact h ▸ ha0
    · exact ih (fun y hy => h0 y (List.mem_cons_of_mem a hy)) (by linarith) x h

/-- Dot product against an all-zero left vector is zero. -/
theorem dotL_eq_zero_of_left_zero (l y : List ℚ) (h : ∀ x ∈ l, x = 0) :
    dotL l y = 0 := by
  induction l generalizing y with
  | nil => simp [dotL]
  | cons a t ih =>
    cases y with
    | nil => simp [dotL]
    | cons b tb =>
      have ha := h a (List.mem_cons_self a t)
      have := ih tb (fun x hx => h x (List.mem_cons_of_mem a hx))
      simp only [dotL, List.zipWith, List.sum_cons] at this ⊢
      rw [ha]
      simpa using this

/-- Splitting a `Forall₂` over an append when the left blocks have equal
length. -/
theorem forall2_append_split {α β : Type} {R : α → β → Prop} :
    ∀ (l1 : List α) (r1 : List β) (l2 : List α) (r2 : List β),
      l1.length = r1.length → List.Forall₂ R (l1 ++ l2) (r1 ++ r2) →
      List.Forall₂ R l1 r1 ∧ List.Forall₂ R l2 r2 := by
  intro l1
  induction l1 with
  | nil =>
    intro r1 l2 r2 hlen h
    cases r1 with
    | nil => exact ⟨List.Forall₂.nil, by simpa using h⟩
    | cons b tb => simp at hlen
  | cons a ta ih =>
    intro r1 l2 r2 hlen h
    cases r1 with
    | nil => simp at hlen
    | cons b tb =>
      simp only [List.cons_append, List.forall₂_cons] at h
      simp only [List.length_cons, Nat.succ_inj] at hlen
      obtain ⟨hab, htail⟩ := h
      obtain ⟨h1, h2⟩ := ih tb l2 r2 hlen htail
      exact ⟨List.forall₂_cons.mpr ⟨hab, h1⟩, h2⟩

/-- Dot product against the all-ones vector of matching length is the sum. -/
theorem dotL_replicate_one (x : List ℚ) : dotL (List.replicate x.length 1) x = sumL x := by
  induction x with
  | nil => rfl
  | cons a t ih =>
    simp only [List.length_cons, List.replicate_succ, dotL, List.zipWith, List.sum_cons,
      one_mul, sumL] at ih ⊢
    rw [ih]

/-- Dot product against the all-minus-ones vector of matching length is the
negated sum. -/
theorem dotL_replicate_negone (x : List ℚ) :
    dotL (List.replicate x.length (-1)) x = -sumL x := by
  induction x with
  | nil => simp [dotL, sumL]
  | cons a t ih =>
    simp only [List.length_cons, List.replicate_succ, dotL, List.zipWith, List.sum_cons,
      neg_mul, one_mul, sumL] at ih ⊢
    rw [ih]
    ring

/-- C2, counterexample.  The claim asserts one alternative-mean formula for the
Gaussian divergence projection together with a floor on every weight-derived
denominator.  At `w = [1]`, `mu = [1]`, `pi1 = [1]`, `pi2 = [0]` the plain
variant `gaussian_projection_lb` divides by the unfloored normalizer and
returns `[0]`, which differs both from the fully-floored formula of the claim
and from what the constraint-aware variant `gaussian_projection` returns at
the same input; no single formula covers both cited functions. -/
theorem gaussian_projection_formula_counterexample :
    (gaussian_projection_lb [1] [1] [1] [0] 1).1 ≠ claimed_alternative_mean [1] [1] [1] [0] ∧
    (gaussian_projection_lb [1] [1] [1] [0] 1).1 ≠
      (gaussian_projection [1] [1] [1] [0] [0] [[1]] [1] 1 [0]).1 := by
  constructor <;>
    norm_num [gaussian_projection_lb, claimed_alternative_mean, gaussian_projection,
      subL, dotL, mvL, PRECISION, List.zipWith3, List.zipWith]

/-- C2, amended.  The constraint-aware variant returns the alternative mean
with every weight-derived denominator floored
(`mu - ((mu.v)/(sum(v^2/(w+eps))+eps)) * v/(w+eps)`), while the plain variant
floors only the per-coordinate weight denominators and divides by the raw
normalizer, and returns divergence value
`sum(w*(mu-alternativeMean)^2)/(2*sigma^2)` for its own alternative mean. -/
theorem gaussian_projection_formulas (w mu pi1 pi2 l0 : List ℚ) (A : List (List ℚ))
    (b lmin : List ℚ) (sigma : ℚ) :
    gaussian_projection_lb w mu pi1 pi2 sigma =
      (plain_alternative_mean w mu pi1 pi2, plain_divergence_value w mu pi1 pi2 sigma) ∧
    (gaussian_projection w mu pi1 pi2 l0 A b sigma lmin).1 =
      claimed_alternative_mean w mu pi1 pi2 :=
  ⟨rfl, rfl⟩

/-- C7.  Every call of `bernoulli_projection` fails: its warm-start call
passes five positional arguments to `gaussian_projection`, whose signature
requires seven, so a `TypeError` is raised before the Bernoulli KL program is
ever set up.  Evaluated here at a concrete well-formed input. -/
theorem bernoulli_projection_always_fails :
    bernoulli_projection [1, 1] [1 / 2, 1 / 2] [1, 0] [0, 1] 1 =
      Except.error PyCallError.arityMismatch ∧
    bernoulli_warmstart_supplied_args < gaussian_projection_required_args :=
  ⟨rfl, by decide⟩

/-- C8.  With `pi1 = pi2` the plain variant's unfloored normalizer is zero for
every input (the direction `v` vanishes), so the source computes
`lagrange = 0.0/0.0 = NaN` and returns NaN entries instead of the claimed
`(meanEstimate, 0)` — the division-by-zero floor the spec mandates is missing
from this copy.  Evaluated at the failing input `w = [1]`, `mu = [2]`,
`pi1 = pi2 = [1/2]`: the float-faithful embedding reports the non-finite
division, while the constraint-aware variant, whose normalizer is floored,
does return the mean estimate with divergence value `0` there (its multiplier
solve at `[0]`). -/
theorem gaussian_projection_lb_nan_at_equal_policies :
    (∀ (w pi : List ℚ), lb_normalizer w pi pi = 0) ∧
    gaussian_projection_lb_float [1] [2] [1 / 2] [1 / 2] 1 =
      Except.error FloatError.nanDivision ∧
    (gaussian_projection [1] [2] [1 / 2] [1 / 2] [0] [[1]] [1] 1 [0]).1 = [2] ∧
    (gaussian_projection [1] [2] [1 / 2] [1 / 2] [0] [[1]] [1] 1 [0]).2.1 = 0 := by
  have hzero : ∀ (w pi : List ℚ), lb_normalizer w pi pi = 0 := by
    intro w pi
    rw [lb_normalizer, subL_self pi]
    exact zip_sq_replicate_zero w pi.length
  refine ⟨hzero, ?_, ?_, ?_⟩
  · rw [gaussian_projection_lb_float, if_pos (hzero [1] [1 / 2])]
  · norm_num [gaussian_projection, subL, dotL, mvL, PRECISION, List.zipWith3,
      List.zipWith]
  · norm_num [gaussian_projection, subL, dotL, mvL, PRECISION, List.zipWith3,
      List.zipWith]

/-- C5, counterexample.  `project_on_feasible` checks only the sum gate: fed a
solver output `[1]` against the constraint row `x <= -1` (a stacked system no
point satisfies), it silently returns `Except.ok [1]` even though
`A.x <= b + 1e-5` is violated, instead of failing. -/
theorem project_on_feasible_counterexample :
    project_on_feasible [1 / 2] (some [[1]]) [-1] [1] = Except.ok [1] ∧
    ¬ List.Forall₂ (fun ax bi => ax ≤ bi + 1 / 100000) (mvL [[1]] [1]) [-1] := by
  constructor
  · norm_num [project_on_feasible, sumL]
  · norm_num [mvL, dotL, List.zipWith, List.forall₂_cons]

/-- C5, amended.  The projection enforces only the sum gate on the solver
output: any `Except.ok` return satisfies `|sum(x)-1| <= 1e-5`; and whenever
the underlying solver returns a point satisfying the stacked constraint
system, the projection returns it and that point satisfies `sum(x) = 1` and
`A.x <= b + 1e-5`.  Constraint satisfaction is not checked by the code itself,
so an infeasible stacked system is not detected when the solver output happens
to sum to one. -/
theorem project_on_feasible_guarantees :
    (∀ (allocation : List ℚ) (A : Option (List (List ℚ))) (b xOpt r : List ℚ),
      project_on_feasible allocation A b xOpt = Except.ok r →
      r = xOpt ∧ |sumL r - 1| ≤ 1 / 100000) ∧
    (∀ (allocation : List ℚ) (A : List (List ℚ)) (b xOpt : List ℚ),
      A.length = b.length →
      xOpt.length = allocation.length →
      constr_sat (stacked_A (some A) allocation.length)
        (stacked_b (some b) allocation.length) xOpt →
      project_on_feasible allocation (some A) b xOpt = Except.ok xOpt ∧
      sumL xOpt = 1 ∧
      List.Forall₂ (fun ax bi => ax ≤ bi + 1 / 100000) (mvL A xOpt) b) := by
  constructor
  · intro allocation A b xOpt r h
    simp only [project_on_feasible] at h
    split at h
    · cases h
    · rename_i hg
      cases h
      push_neg at hg
      exact ⟨rfl, hg⟩
  · intro allocation A b xOpt hlen hx hs
    have hn : xOpt.length = allocation.length := hx
    simp only [constr_sat, stacked_A, stacked_b] at hs
    have hs1 := hs
    rw [show (A ++ eyeRows allocation.length ++ negEyeRows allocation.length
          ++ [List.replicate allocation.length 1] ++ [List.replicate allocation.length (-1)])
        = (A ++ eyeRows allocation.length ++ negEyeRows allocation.length
          ++ [List.replicate allocation.length 1]) ++ [List.replicate allocation.length (-1)]
        from by simp [List.append_assoc],
        show (b ++ List.replicate allocation.length 1 ++ List.replicate allocation.length 0
          ++ [1] ++ [-1])
        = (b ++ List.replicate allocation.length 1 ++ List.replicate allocation.length 0
          ++ [(1 : ℚ)]) ++ [-1]
        from by simp [List.append_assoc]] at hs1
    obtain ⟨hs2, hneg⟩ := forall2_append_split _ _ _ _ (by
      simp [eyeRows, negEyeRows, hlen]) hs1
    rw [show (A ++ eyeRows allocation.length ++ negEyeRows allocation.length
          ++ [List.replicate allocation.length 1])
        = (A ++ eyeRows allocation.length ++ negEyeRows allocation.length)
          ++ [List.replicate allocation.length 1]
        from by simp [List.append_assoc],
        show (b ++ List.replicate allocation.length 1 ++ List.replicate allocation.length 0
          ++ [(1 : ℚ)])
        = (b ++ List.replicate allocation.length 1 ++ List.replicate allocation.length 0)
          ++ [(1 : ℚ)]
        from by simp [List.append_assoc]] at hs2
    obtain ⟨hs3, hones⟩ := forall2_append_split _ _ _ _ (by
      simp [eyeRows, negEyeRows, hlen]) hs2
    obtain ⟨hsA, _⟩ := forall2_append_split _ _ _ _ hlen (by
      simpa [List.append_assoc] using hs3)
    have hub : dotL (List.replicate allocation.length 1) xOpt ≤ 1 := by
      rcases List.forall₂_cons.mp hones with ⟨h1, _⟩
      exact h1
    have hlb : dotL (List.replicate allocation.length (-1)) xOpt ≤ -1 := by
      rcases List.forall₂_cons.mp hneg with ⟨h1, _⟩
      exact h1
    rw [← hn, dotL_replicate_one] at hub
    rw [← hn, dotL_replicate_negone] at hlb
    have hsum : sumL xOpt = 1 := le_antisymm hub (by linarith)
    refine ⟨?_, hsum, ?_⟩
    · simp [project_on_feasible, hsum]
    · show List.Forall₂ (fun ax bi => ax ≤ bi + 1 / 100000)
        (A.map (fun row => dotL row xOpt)) b
      rw [List.forall₂_map_left_iff]
      exact hsA.imp (fun row u h => by linarith)

/-- C5, witness: a feasible solver output is returned unchanged and satisfies
both post-conditions. -/
theorem project_on_feasible_guarantees_witness :
    project_on_feasible [1 / 2] (some [[1]]) [2] [1] = Except.ok [1] ∧
    sumL [1] = 1 ∧
    List.Forall₂ (fun ax bi => ax ≤ bi + 1 / 100000) (mvL [[1]] [1]) [2] :=
  project_on_feasible_guarantees.2 [1 / 2] [[1]] [2] [1] rfl rfl
    (by norm_num [constr_sat, stacked_A, stacked_b, eyeRows, negEyeRows, dotL, sumL,
      List.zipWith, List.range_succ, List.forall₂_cons])

/-- Inductive specification of the harness loop: starting from a nonempty
record list it never crashes, produces one effective decision per round, and
on every failed round the effective decision is the last recorded one. -/
theorem run_harness_spec (outs : List (Option Decision)) :
    ∀ app : List Decision, app ≠ [] →
      ∃ eff, run_harness outs app = some eff ∧ eff.length = outs.length ∧
        ∀ i, outs.get? i = some none →
          eff.get? i = (app ++ eff.take i).getLast? := by
  induction outs with
  | nil =>
    intro app h
    refine ⟨[], rfl, rfl, ?_⟩
    intro i hi
    simp at hi
  | cons o rest ih =>
    intro app h
    cases o with
    | some d =>
      obtain ⟨eff, he, hl, hp⟩ := ih (app ++ [d]) (by simp)
      refine ⟨d :: eff, ?_, by simp [hl], ?_⟩
      · simp [run_harness, he]
      · intro i hi
        cases i with
        | zero => simp at hi
        | succ j =>
          have hj := hp j (by simpa using hi)
          rw [List.get?_cons_succ, List.take_succ_cons, List.append_cons]
          exact hj
    | none =>
      have hsome : app.getLast?.isSome = true := List.getLast?_isSome.mpr h
      obtain ⟨d, hlast⟩ := Option.isSome_iff_exists.mp hsome
      obtain ⟨eff, he, hl, hp⟩ := ih app h
      refine ⟨d :: eff, ?_, by simp [hl], ?_⟩
      · simp [run_harness, hlast, he]
      · intro i hi
        cases i with
        | zero => simp [hlast]
        | succ j =>
          have hj := hp j (by simpa using hi)
          rw [List.get?_cons_succ, List.take_succ_cons, List.append_cons]
          rw [hj]
          cases htake : eff.take j with
          | nil => simp [htake, List.getLast?_append, hlast]
          | cons e te =>
            have hne : (e :: te).getLast?.isSome = true := List.getLast?_isSome.mpr (by simp)
            obtain ⟨v, hv⟩ := Option.isSome_iff_exists.mp hne
            simp [htake, List.getLast?_append, hv]

/-- C4.  A round on which the per-round LP fails makes `CGE.act` signal no
decision (`cge_act_result false d = none`); the harness loop then reuses the
last recorded decision without crashing, for every such round — including the
very first adaptive round, where the last recorded decision is the final
warm-up decision, provided at least one round (warm-up or successful) was
recorded before.  Conjuncts: the loop never crashes, yields one effective
decision per round, every failed round repeats the most recently recorded
decision, every failed round after the first repeats the previous round's
effective decision, and LP failure signals the no-decision value. -/
theorem lp_failure_retains_decision (outs : List (Option Decision))
    (app : List Decision) (h : app ≠ []) :
    (run_harness outs app).isSome = true ∧
    (eff_run outs app).length = outs.length ∧
    (∀ i, outs.get? i = some none →
      (eff_run outs app).get? i = (app ++ (eff_run outs app).take i).getLast?) ∧
    (∀ j, outs.get? (j + 1) = some none →
      (eff_run outs app).get? (j + 1) = (eff_run outs app).get? j) ∧
    (∀ d, cge_act_result false d = none) := by
  obtain ⟨eff, he, hl, hp⟩ := run_harness_spec outs app h
  have heff : eff_run outs app = eff := by simp [eff_run, he]
  refine ⟨by simp [he], by simp [heff, hl], by simpa [heff] using hp, ?_, ?_⟩
  · intro j hj
    rw [heff]
    have hlt : j + 1 < outs.length := by
      by_contra hge
      push_neg at hge
      rw [List.get?_eq_getElem?, List.getElem?_eq_none hge] at hj
      cases hj
    have hlen_take : (eff.take (j + 1)).length = j + 1 := by
      rw [List.length_take]
      omega
    have htake_ne : eff.take (j + 1) ≠ [] := by
      intro hnil
      rw [hnil] at hlen_take
      simp at hlen_take
    have hs : (eff.take (j + 1)).getLast?.isSome = true := List.getLast?_isSome.mpr htake_ne
    obtain ⟨v, hv⟩ := Option.isSome_iff_exists.mp hs
    have hcalc : (eff.take (j + 1)).getLast? = eff.get? j := by
      rw [List.getLast?_eq_getElem?, hlen_take, List.get?_eq_getElem?]
      simp only [Nat.add_sub_cancel, List.getElem?_take]
      simp
    rw [hp (j + 1) hj, List.getLast?_append, hv]
    rw [hv, List.get?_eq_getElem?] at hcalc
    simpa using hcalc
  · intro d
    rfl

/-- C4, witness: a single adaptive round failing right after one warm-up round
is survived, and the effective decision is the recorded warm-up decision. -/
theorem lp_failure_retains_decision_witness :
    (run_harness [none] [Decision.mk 0 false none]).isSome = true ∧
    (eff_run [none] [Decision.mk 0 false none]).get? 0 =
      ([Decision.mk 0 false none] ++
        (eff_run [none] [Decision.mk 0 false none]).take 0).getLast? :=
  ⟨(lp_failure_retains_decision [none] [Decision.mk 0 false none] (by simp)).1,
   (lp_failure_retains_decision [none] [Decision.mk 0 false none] (by simp)).2.2.1 0 rfl⟩

/-- C6, counterexample.  With a caller tolerance of `1` the ladder the code
tries is `[1, 1e-16, 1e-12, 1e-6, 1e-4]` — the caller tolerance replaces the
`None` rung — which differs from the claimed
`[caller-tol, None, 1e-16, 1e-12, 1e-6, 1e-4]`. -/
theorem solve_game_ladder_counterexample :
    tol_sweep (some 1) ≠ claim_ladder (some 1) := by
  norm_num [tol_sweep, claim_ladder, tol_sweep_base]

/-- C6, amended.  Without an explicit starting point, `solve_game` walks the
ladder `[caller-tol if supplied and greater than 1e-16, else None] ++
[1e-16, 1e-12, 1e-6, 1e-4]` in order, each rung with a fresh feasible starting
point, returns the allocation and negated objective of the first successful
rung, and signals `GameUnsolved` (returns nothing) when every rung fails. -/
theorem solve_game_tolerance_ladder :
    tol_sweep none = none :: tol_sweep_base ∧
    (∀ t : ℚ, t > 1 / 10 ^ 16 → tol_sweep (some t) = some t :: tol_sweep_base) ∧
    (∀ t : ℚ, ¬t > 1 / 10 ^ 16 → tol_sweep (some t) = none :: tol_sweep_base) ∧
    (∀ (opt : List ℚ → Option ℚ → OptResult) (starts : ℕ → List ℚ) (tol : Option ℚ),
      solve_game opt starts tol none = solve_game_sweep opt starts (tol_sweep tol) 0) ∧
    (∀ (opt : List ℚ → Option ℚ → OptResult) (starts : ℕ → List ℚ)
        (L : List (Option ℚ)) (k : ℕ),
      ((∀ j, j < L.length → (opt (starts (k + j)) (L.getD j none)).success = false) →
        solve_game_sweep opt starts L k = none) ∧
      (∀ j, j < L.length →
        (∀ i, i < j → (opt (starts (k + i)) (L.getD i none)).success = false) →
        (opt (starts (k + j)) (L.getD j none)).success = true →
        solve_game_sweep opt starts L k =
          some ((opt (starts (k + j)) (L.getD j none)).x,
            -(opt (starts (k + j)) (L.getD j none)).fval))) := by
  refine ⟨rfl, ?_, ?_, ?_, ?_⟩
  · intro t ht
    show (if t > 1 / 10 ^ 16 then some t :: tol_sweep_base else none :: tol_sweep_base)
      = some t :: tol_sweep_base
    rw [if_pos ht]
  · intro t ht
    show (if t > 1 / 10 ^ 16 then some t :: tol_sweep_base else none :: tol_sweep_base)
      = none :: tol_sweep_base
    rw [if_neg ht]
  · intro opt starts tol
    rfl
  · intro opt starts L
    induction L with
    | nil =>
      intro k
      constructor
      · intro _
        rfl
      · intro j hj
        simp at hj
    | cons t rest ih =>
      intro k
      constructor
      · intro hall
        have h0 : (opt (starts k) t).success = false := by
          have h := hall 0 (Nat.succ_pos rest.length)
          rwa [Nat.add_zero, List.getD_cons_zero] at h
        show (if (opt (starts k) t).success
            then some ((opt (starts k) t).x, -(opt (starts k) t).fval)
            else solve_game_sweep opt starts rest (k + 1)) = none
        rw [h0]
        simp only [Bool.false_eq_true, if_false]
        refine (ih (k + 1)).1 (fun j hj => ?_)
        have h := hall (j + 1) (Nat.succ_lt_succ hj)
        rw [List.getD_cons_succ] at h
        rwa [show k + (j + 1) = k + 1 + j from by omega] at h
      · intro j hj hfail hsucc
        cases j with
        | zero =>
          rw [Nat.add_zero, List.getD_cons_zero] at hsucc
          rw [Nat.add_zero, List.getD_cons_zero]
          show (if (opt (starts k) t).success
            then some ((opt (starts k) t).x, -(opt (starts k) t).fval)
            else solve_game_sweep opt starts rest (k + 1))
            = some ((opt (starts k) t).x, -(opt (starts k) t).fval)
          rw [hsucc]
          simp
        | succ m =>
          have h0 : (opt (starts k) t).success = false := by
            have h := hfail 0 (Nat.succ_pos m)
            rwa [Nat.add_zero, List.getD_cons_zero] at h
          rw [List.getD_cons_succ, show k + (m + 1) = k + 1 + m from by omega]
          show (if (opt (starts k) t).success
            then some ((opt (starts k) t).x, -(opt (starts k) t).fval)
            else solve_game_sweep opt starts rest (k + 1))
            = some ((opt (starts (k + 1 + m)) (rest.getD m none)).x,
              -(opt (starts (k + 1 + m)) (rest.getD m none)).fval)
          rw [h0]
          simp only [Bool.false_eq_true, if_false]
          exact (ih (k + 1)).2 m (Nat.lt_of_succ_lt_succ hj)
            (fun i hi => by
              have h := hfail (i + 1) (Nat.succ_lt_succ hi)
              rw [List.getD_cons_succ] at h
              rwa [show k + (i + 1) = k + 1 + i from by omega] at h)
            (by
              rw [List.getD_cons_succ] at hsucc
              rwa [show k + (m + 1) = k + 1 + m from by omega] at hsucc)

/-- C6, witness: with an optimizer that succeeds on the first rung, the sweep
over the default ladder returns that rung's allocation and negated value. -/
theorem solve_game_tolerance_ladder_witness :
    solve_game_sweep const_opt const_starts (tol_sweep none) 0 = some ([1], -5) :=
  (solve_game_tolerance_ladder.2.2.2.2 const_opt const_starts (tol_sweep none) 0).2 0
    (by simp [tol_sweep, tol_sweep_base]) (fun i hi => absurd hi (Nat.not_lt_zero i)) rfl

/-- Bracket invariant of the bisection loop: starting from a nonempty bracket,
the returned value is a grid point probed inside that bracket. -/
theorem bs_loop_mem (kl : ℚ → ℚ) (thr : ℚ) (itv : ℕ → ℚ) :
    ∀ (fuel p q : ℕ), p < q →
      ∃ j, p ≤ j ∧ j < q ∧ bs_loop kl thr itv fuel p q = (itv j, kl (itv j)) := by
  intro fuel
  induction fuel with
  | zero =>
    intro p q hpq
    exact ⟨(p + q) / 2, by omega, by omega, rfl⟩
  | succ f ih =>
    intro p q hpq
    by_cases hkl : kl (itv ((p + q) / 2)) < thr
    · by_cases hstop : (p + q) / 2 + 1 ≥ q
      · exact ⟨(p + q) / 2, by omega, by omega, by simp [bs_loop, hkl, hstop]⟩
      · obtain ⟨j, h1, h2, h3⟩ := ih ((p + q) / 2) q (by omega)
        exact ⟨j, by omega, h2, by simp only [bs_loop, if_pos hkl, if_neg hstop]; exact h3⟩
    · by_cases hstop : p + 1 ≥ (p + q) / 2
      · exact ⟨(p + q) / 2, by omega, by omega, by simp [bs_loop, hkl, hstop]⟩
      · obtain ⟨j, h1, h2, h3⟩ := ih p ((p + q) / 2) (by omega)
        exact ⟨j, h1, by omega, by simp only [bs_loop, if_neg hkl, if_neg hstop]; exact h3⟩

/-- Monotonicity of the bisection result in the threshold, for a nondecreasing
grid: raising the threshold can only move the returned grid value up.  This
holds for an arbitrary loss function `kl`, because raising the threshold flips
comparisons in one direction only, steering every divergence of the two runs
toward higher indices. -/
theorem bs_loop_mono_threshold (kl : ℚ → ℚ) (itv : ℕ → ℚ)
    (hitv : ∀ a b : ℕ, a ≤ b → itv a ≤ itv b) {t1 t2 : ℚ} (ht : t1 ≤ t2) :
    ∀ (fuel p q : ℕ),
      (bs_loop kl t1 itv fuel p q).1 ≤ (bs_loop kl t2 itv fuel p q).1 := by
  intro fuel
  induction fuel with
  | zero =>
    intro p q
    exact le_refl _
  | succ f ih =>
    intro p q
    by_cases h1 : kl (itv ((p + q) / 2)) < t1
    · have h2 : kl (itv ((p + q) / 2)) < t2 := lt_of_lt_of_le h1 ht
      by_cases hstop : (p + q) / 2 + 1 ≥ q
      · simp [bs_loop, h1, h2, hstop]
      · simp only [bs_loop, if_pos h1, if_pos h2, if_neg hstop]
        exact ih ((p + q) / 2) q
    · by_cases h2 : kl (itv ((p + q) / 2)) < t2
      · have hleft : (bs_loop kl t1 itv (f + 1) p q).1 ≤ itv ((p + q) / 2) := by
          by_cases hstop : p + 1 ≥ (p + q) / 2
          · simp [bs_loop, h1, hstop]
          · simp only [bs_loop, if_neg h1, if_neg hstop]
            obtain ⟨j, hj1, hj2, hj3⟩ := bs_loop_mem kl t1 itv f p ((p + q) / 2) (by omega)
            rw [hj3]
            exact hitv j _ (le_of_lt hj2)
        have hright : itv ((p + q) / 2) ≤ (bs_loop kl t2 itv (f + 1) p q).1 := by
          by_cases hstop : (p + q) / 2 + 1 ≥ q
          · simp [bs_loop, h2, hstop]
          · simp only [bs_loop, if_pos h2, if_neg hstop]
            obtain ⟨j, hj1, hj2, hj3⟩ := bs_loop_mem kl t2 itv f ((p + q) / 2) q (by omega)
            rw [hj3]
            exact hitv _ j hj1
        exact le_trans hleft hright
      · by_cases hstop : p + 1 ≥ (p + q) / 2
        · simp [bs_loop, h1, h2, hstop]
        · simp only [bs_loop, if_neg h1, if_neg h2, if_neg hstop]
          exact ih p ((p + q) / 2)

/-- Antitone-grid counterpart of the threshold monotonicity: on a
nonincreasing grid, raising the threshold can only move the returned grid
value down. -/
theorem bs_loop_anti_threshold (kl : ℚ → ℚ) (itv : ℕ → ℚ)
    (hitv : ∀ a b : ℕ, a ≤ b → itv b ≤ itv a) {t1 t2 : ℚ} (ht : t1 ≤ t2) :
    ∀ (fuel p q : ℕ),
      (bs_loop kl t2 itv fuel p q).1 ≤ (bs_loop kl t1 itv fuel p q).1 := by
  intro fuel
  induction fuel with
  | zero =>
    intro p q
    exact le_refl _
  | succ f ih =>
    intro p q
    by_cases h1 : kl (itv ((p + q) / 2)) < t1
    · have h2 : kl (itv ((p + q) / 2)) < t2 := lt_of_lt_of_le h1 ht
      by_cases hstop : (p + q) / 2 + 1 ≥ q
      · simp [bs_loop, h1, h2, hstop]
      · simp only [bs_loop, if_pos h1, if_pos h2, if_neg hstop]
        exact ih ((p + q) / 2) q
    · by_cases h2 : kl (itv ((p + q) / 2)) < t2
      · have hleft : itv ((p + q) / 2) ≤ (bs_loop kl t1 itv (f + 1) p q).1 := by
          by_cases hstop : p + 1 ≥ (p + q) / 2
          · simp [bs_loop, h1, hstop]
          · simp only [bs_loop, if_neg h1, if_neg hstop]
            obtain ⟨j, hj1, hj2, hj3⟩ := bs_loop_mem kl t1 itv f p ((p + q) / 2) (by omega)
            rw [hj3]
            exact hitv j _ (le_of_lt hj2)
        have hright : (bs_loop kl t2 itv (f + 1) p q).1 ≤ itv ((p + q) / 2) := by
          by_cases hstop : (p + q) / 2 + 1 ≥ q
          · simp [bs_loop, h2, hstop]
          · simp only [bs_loop, if_pos h2, if_neg hstop]
            obtain ⟨j, hj1, hj2, hj3⟩ := bs_loop_mem kl t2 itv f ((p + q) / 2) q (by omega)
            rw [hj3]
            exact hitv _ j hj1
        exact le_trans hright hleft
      · by_cases hstop : p + 1 ≥ (p + q) / 2
        · simp [bs_loop, h1, h2, hstop]
        · simp only [bs_loop, if_neg h1, if_neg h2, if_neg hstop]
          exact ih p ((p + q) / 2)

/-- When every bracketed grid point is below the threshold the bisection
drifts all the way to the top of the bracket, provided the fuel covers the
bracket width. -/
theorem bs_loop_all_lt (kl : ℚ → ℚ) (thr : ℚ) (itv : ℕ → ℚ) :
    ∀ (fuel p q : ℕ), p < q → q - p ≤ fuel + 1 →
      (∀ j, p ≤ j → j < q → kl (itv j) < thr) →
      bs_loop kl thr itv fuel p q = (itv (q - 1), kl (itv (q - 1))) := by
  intro fuel
  induction fuel with
  | zero =>
    intro p q hpq hfuel _
    have : q = p + 1 := by omega
    subst this
    have : (p + (p + 1)) / 2 = p := by omega
    simp [bs_loop, this]
  | succ f ih =>
    intro p q hpq hfuel hall
    have hkl : kl (itv ((p + q) / 2)) < thr := hall _ (by omega) (by omega)
    by_cases hstop : (p + q) / 2 + 1 ≥ q
    · have heq : (p + q) / 2 = q - 1 := by omega
      rw [heq] at hkl hstop
      simp [bs_loop, heq, hkl, hstop]
    · simp only [bs_loop, if_pos hkl, if_neg hstop]
      exact ih ((p + q) / 2) q (by omega) (by omega)
        (fun j hj1 hj2 => hall j (by omega) hj2)

/-- When the very first probe is already at or above the threshold the search
never leaves the lower half: the result is a grid point with index at most the
first midpoint. -/
theorem bs_loop_first_probe_fail (kl : ℚ → ℚ) (thr : ℚ) (itv : ℕ → ℚ)
    (fuel p q : ℕ) (hpq : p < q) (hkl : ¬kl (itv ((p + q) / 2)) < thr) :
    ∃ j, p ≤ j ∧ j ≤ (p + q) / 2 ∧
      bs_loop kl thr itv fuel p q = (itv j, kl (itv j)) := by
  cases fuel with
  | zero => exact ⟨(p + q) / 2, by omega, le_refl _, rfl⟩
  | succ f =>
    by_cases hstop : p + 1 ≥ (p + q) / 2
    · exact ⟨(p + q) / 2, by omega, le_refl _, by simp [bs_loop, hkl, hstop]⟩
    · obtain ⟨j, h1, h2, h3⟩ := bs_loop_mem kl thr itv f p ((p + q) / 2) (by omega)
      exact ⟨j, h1, le_of_lt h2, by simp only [bs_loop, if_neg hkl, if_neg hstop]; exact h3⟩

/-- Monotonicity of the linspace grid when the right endpoint is at least the
left endpoint and there are at least two grid points. -/
theorem linspace_mono (a b : ℚ) (num : ℕ) (hab : a ≤ b) (hnum : 0 < (num : ℚ) - 1) :
    ∀ i j : ℕ, i ≤ j → linspace a b num i ≤ linspace a b num j := by
  intro i j hij
  simp only [linspace]
  apply add_le_add_left
  rw [div_le_div_iff_of_pos_right hnum]
  exact mul_le_mul_of_nonneg_left (Nat.cast_le.mpr hij) (sub_nonneg.mpr hab)

/-- Antitonicity of the linspace grid when the right endpoint is at most the
left endpoint. -/
theorem linspace_anti (a b : ℚ) (num : ℕ) (hba : b ≤ a) (hnum : 0 < (num : ℚ) - 1) :
    ∀ i j : ℕ, i ≤ j → linspace a b num j ≤ linspace a b num i := by
  intro i j hij
  simp only [linspace]
  apply add_le_add_left
  rw [div_le_div_iff_of_pos_right hnum]
  exact mul_le_mul_of_nonpos_left (Nat.cast_le.mpr hij) (sub_nonpos.mpr hba)

/-- C9, counterexample.  The claim has no restriction on the mean vector, but
with `mu = [7]` above the default search ceiling `upper = 6` the upper-bound
grid `linspace(7, 6, 5000)` runs downward, so the returned upper bound moves
down, not up, as the threshold grows: at `f_t = 8` every grid point is below
the threshold and the search runs to the grid's far end `6`, while at the
smaller `f_t = 1/8` the first probe already exceeds the threshold and the
result stays above `6`. -/
theorem confidence_interval_counterexample :
    (1 : ℚ) / 8 < 8 ∧
    (get_confidence_interval [7] [1] 8 6 (-1) default_kl).2.getD 0 0
      < (get_confidence_interval [7] [1] (1 / 8) 6 (-1) default_kl).2.getD 0 0 := by
  refine ⟨by norm_num, ?_⟩
  have hsimp : ∀ f : ℚ, (get_confidence_interval [7] [1] f 6 (-1) default_kl).2.getD 0 0
      = (bs_loop (default_kl 7) (f / 1) (linspace 7 6 5000) 5000 0 5000).1 := fun f => rfl
  rw [hsimp, hsimp]
  have h8 : (bs_loop (default_kl 7) ((8 : ℚ) / 1) (linspace 7 6 5000) 5000 0 5000).1
      = linspace 7 6 5000 4999 := by
    rw [bs_loop_all_lt (default_kl 7) ((8 : ℚ) / 1) (linspace 7 6 5000) 5000 0 5000
      (by omega) (by omega) ?_]
    intro j hj0 hj
    have hj4999 : (j : ℚ) ≤ 4999 := by
      have : j ≤ 4999 := by omega
      exact_mod_cast this
    have hj0q : (0 : ℚ) ≤ (j : ℚ) := Nat.cast_nonneg j
    simp only [default_kl, linspace]
    push_cast
    have hr : (7 : ℚ) - (7 + (6 - 7) * (j : ℚ) / (5000 - 1)) = (j : ℚ) / 4999 := by
      ring_nf
    rw [hr]
    have hle1 : (j : ℚ) / 4999 ≤ 1 := by
      rw [div_le_one (by norm_num : (0 : ℚ) < 4999)]
      exact hj4999
    have hge0 : (0 : ℚ) ≤ (j : ℚ) / 4999 := div_nonneg hj0q (by norm_num)
    nlinarith [hle1, hge0]
  have h4999 : linspace 7 6 5000 4999 = 6 := by
    simp only [linspace]
    norm_num
  have hprobe : ¬default_kl 7 (linspace 7 6 5000 ((0 + 5000) / 2)) < (1 : ℚ) / 8 / 1 := by
    simp only [default_kl, linspace]
    norm_num
  obtain ⟨j, hj0, hjle, hj3⟩ := bs_loop_first_probe_fail (default_kl 7) ((1 : ℚ) / 8 / 1)
    (linspace 7 6 5000) 5000 0 5000 (by omega) hprobe
  rw [h8, h4999, hj3]
  simp only [linspace]
  push_cast
  have hj2500 : (j : ℚ) ≤ 2500 := by
    have : j ≤ 2500 := by omega
    exact_mod_cast this
  have hfrac : (j : ℚ) / 4999 ≤ 2500 / 4999 := by
    rw [div_le_div_iff_of_pos_right (by norm_num : (0 : ℚ) < 4999)]
    exact hj2500
  have hexp : (7 : ℚ) + (6 - 7) * (j : ℚ) / (5000 - 1) = 7 - (j : ℚ) / 4999 := by
    ring_nf
  rw [hexp]
  have hnum : (2500 : ℚ) / 4999 < 1 := by norm_num
  linarith

/-- C9, amended.  For any KL function and positive pull counts, and for means
lying inside the search window `[lower, upper]` (so the upper grid runs upward
and the lower grid downward), raising the threshold `f_t` moves every per-arm
upper bound up (or keeps it) and every per-arm lower bound down (or keeps
it). -/
theorem confidence_interval_monotone (kl : ℚ → ℚ → ℚ) (mu : List ℚ)
    (f1 f2 upper lower : ℚ) (hf : f1 ≤ f2) :
    ∀ pulls : List ℚ,
    (∀ n ∈ pulls, 0 < n) →
    (∀ m ∈ mu, m ≤ upper) →
    (∀ m ∈ mu, lower ≤ m) →
    List.Forall₂ (· ≤ ·) (get_confidence_interval mu pulls f1 upper lower kl).2
      (get_confidence_interval mu pulls f2 upper lower kl).2 ∧
    List.Forall₂ (· ≤ ·) (get_confidence_interval mu pulls f2 upper lower kl).1
      (get_confidence_interval mu pulls f1 upper lower kl).1 := by
  induction mu with
  | nil =>
    intro pulls _ _ _
    simp [get_confidence_interval]
  | cons m mt ih =>
    intro pulls hpulls hup hlow
    cases pulls with
    | nil => simp [get_confidence_interval]
    | cons n nt =>
      have hn : 0 < n := hpulls n (List.mem_cons_self _ _)
      have hthr : f1 / n ≤ f2 / n := (div_le_div_iff_of_pos_right hn).mpr hf
      have hm_up : m ≤ upper := hup m (List.mem_cons_self _ _)
      have hm_low : lower ≤ m := hlow m (List.mem_cons_self _ _)
      obtain ⟨ih1, ih2⟩ := ih nt
        (fun x hx => hpulls x (List.mem_cons_of_mem _ hx))
        (fun x hx => hup x (List.mem_cons_of_mem _ hx))
        (fun x hx => hlow x (List.mem_cons_of_mem _ hx))
      constructor
      · show List.Forall₂ (· ≤ ·)
          ((binary_search (kl m) (linspace m upper 5000) (f1 / n) 5000).1 ::
            (get_confidence_interval mt nt f1 upper lower kl).2)
          ((binary_search (kl m) (linspace m upper 5000) (f2 / n) 5000).1 ::
            (get_confidence_interval mt nt f2 upper lower kl).2)
        refine List.forall₂_cons.mpr ⟨?_, ih1⟩
        exact bs_loop_mono_threshold (kl m) (linspace m upper 5000)
          (linspace_mono m upper 5000 hm_up (by norm_num)) hthr 5000 0 5000
      · show List.Forall₂ (· ≤ ·)
          ((binary_search (kl m) (linspace m lower 5000) (f2 / n) 5000).1 ::
            (get_confidence_interval mt nt f2 upper lower kl).1)
          ((binary_search (kl m) (linspace m lower 5000) (f1 / n) 5000).1 ::
            (get_confidence_interval mt nt f1 upper lower kl).1)
        refine List.forall₂_cons.mpr ⟨?_, ih2⟩
        exact bs_loop_anti_threshold (kl m) (linspace m lower 5000)
          (linspace_anti m lower 5000 hm_low (by norm_num)) hthr 5000 0 5000

/-- C9, witness at a concrete in-window input. -/
theorem confidence_interval_monotone_witness :
    List.Forall₂ (· ≤ ·) (get_confidence_interval [1 / 2] [1] 1 6 (-1) default_kl).2
      (get_confidence_interval [1 / 2] [1] 2 6 (-1) default_kl).2 ∧
    List.Forall₂ (· ≤ ·) (get_confidence_interval [1 / 2] [1] 2 6 (-1) default_kl).1
      (get_confidence_interval [1 / 2] [1] 1 6 (-1) default_kl).1 :=
  confidence_interval_monotone default_kl [1 / 2] 1 2 6 (-1) (by norm_num) [1]
    (by intro n hn; rw [List.mem_singleton] at hn; rw [hn]; norm_num)
    (by intro m hm; rw [List.mem_singleton] at hm; rw [hm]; norm_num)
    (by intro m hm; rw [List.mem_singleton] at hm; rw [hm]; norm_num)

/-- Correctness of the Cramer solve on a full-rank square system. -/
theorem mulVec_cramer_solve {n : ℕ} (B : Matrix (Fin n) (Fin n) ℚ) (c : Fin n → ℚ)
    (h : B.det ≠ 0) : B.mulVec (cramer_solve B c) = c := by
  have hc : cramer_solve B c = B.det⁻¹ • B.cramer c := by
    funext i
    simp [cramer_solve, Matrix.cramer_apply, Pi.smul_apply, smul_eq_mul, div_eq_inv_mul]
  rw [hc, Matrix.mulVec_smul, Matrix.mulVec_cramer, smul_smul, inv_mul_cancel₀ h, one_smul]

/-- Anything the neighbor fold adds beyond the starting accumulator is the
Cramer solution of some full-rank candidate base and passed the feasibility
check. -/
theorem mem_foldl_add_candidate {m n : ℕ} (A : Fin m → Fin n → ℚ) (b : Fin m → ℚ) :
    ∀ (cands : List (List (Fin m))) (acc : List (Fin n → ℚ)) (x : Fin n → ℚ),
      x ∈ cands.foldl (add_candidate A b) acc →
      x ∈ acc ∨ ∃ nb ∈ cands, (row_select A nb).det ≠ 0 ∧
        x = cramer_solve (row_select A nb) (b_select b nb) ∧
        ∀ r, dotF (A r) x ≤ b r + 1 / 100000 := by
  intro cands
  induction cands with
  | nil =>
    intro acc x hx
    exact Or.inl hx
  | cons nb rest ih =>
    intro acc x hx
    simp only [List.foldl_cons] at hx
    rcases ih _ x hx with hmem | ⟨nb1, hnb1, hrest⟩
    · by_cases hdet : (row_select A nb).det ≠ 0
      · by_cases hcond : (∀ r, dotF (A r)
            (cramer_solve (row_select A nb) (b_select b nb)) ≤ b r + 1 / 100000) ∧
            ¬arreqclose_in_list (cramer_solve (row_select A nb) (b_select b nb)) acc
        · simp only [add_candidate, if_pos hdet, if_pos hcond] at hmem
          rcases List.mem_append.mp hmem with h1 | h1
          · exact Or.inl h1
          · rw [List.mem_singleton] at h1
            subst h1
            exact Or.inr ⟨nb, List.mem_cons_self _ _, hdet, rfl, hcond.1⟩
        · simp only [add_candidate, if_pos hdet, if_neg hcond] at hmem
          exact Or.inl hmem
      · simp only [add_candidate, if_neg hdet] at hmem
        exact Or.inl hmem
    · exact Or.inr ⟨nb1, List.mem_cons_of_mem _ hnb1, hrest⟩

/-- Provenance of a candidate base: it is an active-constraint combination of
size `n` with one position swapped for an inactive constraint. -/
theorem candidate_bases_mem {m : ℕ} (n : ℕ) (slack : Fin m → ℚ) (nb : List (Fin m))
    (h : nb ∈ candidate_bases n slack) :
    ∃ base c i, base ∈ List.sublistsLen n (active_indices slack) ∧
      c ∈ inactive_indices slack ∧ i < base.length ∧ nb = base.set i c := by
  simp only [candidate_bases, List.mem_flatMap, List.mem_map, List.mem_range] at h
  obtain ⟨base, hbase, c, hc, i, hi, rfl⟩ := h
  exact ⟨base, c, i, hbase, hc, hi, rfl⟩

/-- Membership in the inactive index list is exactly nonzero slack. -/
theorem mem_inactive_iff {m : ℕ} (slack : Fin m → ℚ) (c : Fin m) :
    c ∈ inactive_indices slack ↔ slack c ≠ 0 := by
  simp [inactive_indices, List.mem_filter]

/-- Membership in the active index list is exactly zero slack — exact
equality, no tolerance. -/
theorem mem_active_iff {m : ℕ} (slack : Fin m → ℚ) (c : Fin m) :
    c ∈ active_indices slack ↔ slack c = 0 := by
  simp [active_indices, List.mem_filter]

/-- The swapped-in inactive constraint is tight at the Cramer solution of the
swapped base. -/
theorem cramer_row {m n : ℕ} (A : Fin m → Fin n → ℚ) (b : Fin m → ℚ)
    (base : List (Fin m)) (c : Fin m) (i : ℕ) (hlen : base.length = n)
    (hi : i < base.length)
    (hdet : (row_select A (base.set i c)).det ≠ 0) :
    dotF (A c)
      (cramer_solve (row_select A (base.set i c)) (b_select b (base.set i c))) = b c := by
  have hmv := mulVec_cramer_solve (row_select A (base.set i c)) (b_select b (base.set i c)) hdet
  have hi2 : i < n := hlen ▸ hi
  have hrowv := congrFun hmv ⟨i, hi2⟩
  have hget : (base.set i c)[i]? = some c :=
    List.getElem?_set_self (by simpa using hi)
  have hrow : ∀ j, row_select A (base.set i c) ⟨i, hi2⟩ j = A c j := by
    intro j
    simp [row_select, hget]
  have hbs : b_select b (base.set i c) ⟨i, hi2⟩ = b c := by
    simp [b_select, hget]
  rw [← hbs, ← hrowv]
  simp only [Matrix.mulVec, Matrix.dotProduct, dotF]
  exact Finset.sum_congr rfl (fun j _ => by rw [hrow j])

/-- The neighbor fold keeps the accumulator pairwise non-approximately-equal:
a candidate is appended only when it is not `allclose` to any earlier one. -/
theorem foldl_add_candidate_pairwise {m n : ℕ} (A : Fin m → Fin n → ℚ) (b : Fin m → ℚ) :
    ∀ (cands : List (List (Fin m))) (acc : List (Fin n → ℚ)),
      acc.Pairwise (fun e x => ¬allclose e x) →
      (cands.foldl (add_candidate A b) acc).Pairwise (fun e x => ¬allclose e x) := by
  intro cands
  induction cands with
  | nil =>
    intro acc h
    exact h
  | cons nb rest ih =>
    intro acc h
    simp only [List.foldl_cons]
    apply ih
    by_cases hdet : (row_select A nb).det ≠ 0
    · by_cases hcond : (∀ r, dotF (A r)
          (cramer_solve (row_select A nb) (b_select b nb)) ≤ b r + 1 / 100000) ∧
          ¬arreqclose_in_list (cramer_solve (row_select A nb) (b_select b nb)) acc
      · simp only [add_candidate, if_pos hdet, if_pos hcond]
        rw [List.pairwise_append]
        refine ⟨h, List.pairwise_singleton _ _, ?_⟩
        intro a ha y hy
        rw [List.mem_singleton] at hy
        subst hy
        intro hclose
        exact hcond.2 ⟨a, ha, hclose⟩
      · simp only [add_candidate, if_pos hdet, if_neg hcond]
        exact h
    · simp only [add_candidate, if_neg hdet]
      exact h

/-- C3.  When the slack vector is the one induced by the vertex
(`slack = b - A.vertex`, as at the call sites), every policy returned by
`compute_neighbors` lies in the polytope within tolerance `1e-5`, is the
solution of a full-rank swapped basis (candidates with rank-deficient bases
are excluded), makes tight some constraint that is inactive at the input
vertex — so it differs from the vertex in at least one active constraint and
in particular is never the vertex itself — and the returned list is
deduplicated: no element is approximately equal to an earlier one. -/
theorem compute_neighbors_sound {m n : ℕ} (A : Fin m → Fin n → ℚ) (b : Fin m → ℚ)
    (vertex : Fin n → ℚ) (slack : Fin m → ℚ)
    (hslack : ∀ c, slack c = b c - dotF (A c) vertex) :
    (∀ x ∈ compute_neighbors A b vertex slack,
      (∀ r, dotF (A r) x ≤ b r + 1 / 100000) ∧
      (∃ nb, (row_select A nb).det ≠ 0 ∧
        x = cramer_solve (row_select A nb) (b_select b nb)) ∧
      (∃ c, slack c ≠ 0 ∧ dotF (A c) x = b c) ∧
      x ≠ vertex) ∧
    (compute_neighbors A b vertex slack).Pairwise (fun e x => ¬allclose e x) := by
  constructor
  · intro x hx
    rcases mem_foldl_add_candidate A b _ [] x hx with h0 | ⟨nb, hnb, hdet, hxeq, hfeas⟩
    · cases h0
    · obtain ⟨base, c, i, hbase, hc, hi, rfl⟩ := candidate_bases_mem n slack nb hnb
      have hlen : base.length = n := (List.mem_sublistsLen.mp hbase).2
      have hcne : slack c ≠ 0 := (mem_inactive_iff slack c).mp hc
      have hrow : dotF (A c) x = b c := by
        rw [hxeq]
        exact cramer_row A b base c i hlen hi hdet
      refine ⟨hfeas, ⟨_, hdet, hxeq⟩, ⟨c, hcne, hrow⟩, ?_⟩
      intro hxv
      apply hcne
      have hvx : dotF (A c) vertex = b c := by
        rw [← hxv]
        exact hrow
      rw [hslack c, hvx, sub_self]
  · exact foldl_add_candidate_pairwise A b _ [] List.Pairwise.nil

/-- C3, witness: the deduplication conjunct instantiated at a concrete
polytope whose slack vector is the one induced by its vertex. -/
theorem compute_neighbors_sound_witness :
    (compute_neighbors wA wb wvertex wslack).Pairwise (fun e x => ¬allclose e x) :=
  (compute_neighbors_sound wA wb wvertex wslack (by
    intro c
    fin_cases c <;>
      norm_num [wA, wb, wvertex, wslack, dotF, Fin.sum_univ_one,
        Matrix.cons_val_zero, Matrix.cons_val_one, Matrix.head_cons])).2

/-- C10.  The neighbor enumeration classifies a constraint as active exactly
when its slack entry equals zero — no tolerance, unlike the `1e-5` feasibility
tolerance — and whenever fewer than `len(vertex)` slack entries are exactly
zero there is no size-`len(vertex)` combination of active constraints, so the
returned neighbor list is empty. -/
theorem compute_neighbors_exact_active {m n : ℕ} (A : Fin m → Fin n → ℚ)
    (b : Fin m → ℚ) (vertex : Fin n → ℚ) (slack : Fin m → ℚ)
    (hcount : (active_indices slack).length < n) :
    (∀ c, c ∈ active_indices slack ↔ slack c = 0) ∧
    compute_neighbors A b vertex slack = [] := by
  refine ⟨fun c => mem_active_iff slack c, ?_⟩
  have hbases : List.sublistsLen n (active_indices slack) = [] := by
    rw [List.eq_nil_iff_forall_not_mem]
    intro l hl
    have h2 := List.mem_sublistsLen.mp hl
    have h3 := h2.1.length_le
    omega
  simp [compute_neighbors, candidate_bases, hbases]

/-- C10, witness: with a single nonzero slack entry there are no active
constraints, so the neighbor list of this one-arm polytope is empty. -/
theorem compute_neighbors_exact_active_witness :
    compute_neighbors qA qb qvertex qslack = [] :=
  (compute_neighbors_exact_active qA qb qvertex qslack (by
    have h1 : active_indices qslack
        = (List.finRange 1).filter (fun c => decide (qslack c = 0)) := rfl
    have h2 : List.finRange 1 = [(0 : Fin 1)] := rfl
    have h3 : qslack 0 = 1 / 2 := rfl
    rw [h1, h2, List.filter_cons]
    norm_num [h3])).2

/-- C1.  The Explorer's stopping test, with game value and multipliers taken
from the best response at the empirical allocation `n_pulls / t`, fires
exactly when `t*gameValue + multipliers.(b - shrunkConstraints.optimalPolicy)
> beta + sum(multipliers)*(f_t*sqrt(w_t_norm)+1)`, where `shrunkConstraints`
shifts every entry of the constraint estimate down by `f_t*sqrt(w_t_norm)`
and `beta = log((1+log t)*2/delta)`. -/
theorem stopping_criterion_iff {mm na : ℕ} (br : (Fin na → ℝ) → ℝ × (Fin mm → ℝ))
    (n_pulls : Fin na → ℝ) (t delta : ℝ)
    (constraints : Fin mm → Fin na → ℝ) (b : Fin mm → ℝ)
    (vertex : Fin na → ℝ) (f_t w_t_norm : ℝ) :
    stopping_criterion br n_pulls t delta constraints b vertex f_t w_t_norm ↔
      spec_stopping_test (br (fun a => n_pulls a / t)).1 (br (fun a => n_pulls a / t)).2
        b (fun r a => constraints r a - f_t * Real.sqrt w_t_norm) vertex
        t delta f_t w_t_norm :=
  Iff.rfl

end BanditExp
